import Mathlib

/-!
Verification of the lollms functions zoo against its specification.

Each Python component relevant to the verified properties is shallowly
embedded: pure data manipulation becomes Lean functions over an explicit
JSON value type, LLM calls and OS interaction become oracle parameters
(functions supplied as arguments), and Python exceptions that the code
catches become `Option`/branching in the embedding.
-/

set_option autoImplicit false

namespace LollmsZoo

/-! ## JSON values

Model of the values produced by Python `json.load` / `json.loads`:
dicts are ordered association lists (Python dicts preserve insertion
order and have unique keys), numbers are modelled as integers (the
memory schema only uses integer fields). -/

inductive JVal where
  | null : JVal
  | bool : Bool → JVal
  | num : Int → JVal
  | str : String → JVal
  | arr : List JVal → JVal
  | obj : List (String × JVal) → JVal
deriving Repr

/-! Structural equality on JSON values, the semantics of Python `==` / `!=`
on values produced by `json.loads`. -/

mutual

def JVal.beq : JVal → JVal → Bool
  | .null, .null => true
  | .bool a, .bool b => a == b
  | .num a, .num b => a == b
  | .str a, .str b => a == b
  | .arr xs, .arr ys => beqArr xs ys
  | .obj xs, .obj ys => beqFields xs ys
  | _, _ => false

def beqArr : List JVal → List JVal → Bool
  | [], [] => true
  | x :: xs, y :: ys => JVal.beq x y && beqArr xs ys
  | _, _ => false

def beqFields : List (String × JVal) → List (String × JVal) → Bool
  | [], [] => true
  | (k1, v1) :: xs, (k2, v2) :: ys => k1 == k2 && JVal.beq v1 v2 && beqFields xs ys
  | _, _ => false

end

instance : BEq JVal := ⟨JVal.beq⟩

/-- Python dict lookup `d[k]` on the field list (first matching key). -/
def jGet (fs : List (String × JVal)) (k : String) : Option JVal :=
  (fs.find? (fun p => p.1 == k)).map (fun p => p.2)

/-- Python dict assignment `d[k] = v`: replace the value in place if the
key is present (keys are unique, so the first occurrence is the only
one), otherwise append the new key at the end. -/
def jSet : List (String × JVal) → String → JVal → List (String × JVal)
  | [], k, v => [(k, v)]
  | p :: ps, k, v => if p.1 == k then (k, v) :: ps else p :: jSet ps k v

/-- Python `isinstance(v, dict)`. -/
def JVal.isDict : JVal → Bool
  | .obj _ => true
  | _ => false

/-- `v[k]` when `v` is a dict; `none` models `KeyError`/`TypeError`. -/
def JVal.getKey (v : JVal) (k : String) : Option JVal :=
  match v with
  | .obj fs => jGet fs k
  | _ => none

/-- `v[k] = x` when `v` is a dict; on any other value the Python
statement raises, which the call sites catch, leaving `v` unchanged. -/
def JVal.setKey (v : JVal) (k : String) (x : JVal) : JVal :=
  match v with
  | .obj fs => .obj (jSet fs k x)
  | _ => v

/-- Python `k in v` for a dict `v`. -/
def JVal.hasKey (v : JVal) (k : String) : Bool :=
  (v.getKey k).isSome

/-! ## Long-term memory manager
(`context_updater/long_term_memory/function.py`) -/

/-- The hardcoded bond object used both in the empty-schema default and
as the replacement for a non-dict bond. -/
def defaultBond : JVal :=
  .obj [("id", .str "bond_001"), ("c", .str "Initial bond state"),
        ("imp", .num 5), ("ts", .num 0)]

/-- The hardcoded empty-schema default memory document. -/
def defaultMemory : JVal :=
  .obj [("i", .arr []), ("b", defaultBond), ("n", .arr []),
        ("k", .arr []), ("sys", .arr []), ("s", .arr [])]

/-- `expected_keys` from `verify_and_fix_memory`. -/
def expectedKeys : List String := ["i", "b", "n", "k", "sys", "s"]

/-- The structure check performed by `verify_and_fix_memory`:
`isinstance(memory_json, dict) and all(k in memory_json for k in expected_keys)`. -/
def memoryWellFormedTop (m : JVal) : Bool :=
  m.isDict && expectedKeys.all (fun k => m.hasKey k)

/-- A memory JSON input is malformed exactly when `json.load` fails
(`none`) or the loaded value fails the structure check (the code raises
`ValueError` in that case). -/
def parseMalformed : Option JVal → Bool
  | none => true
  | some m => !memoryWellFormedTop m

/-- `LongTermMemoryFunction.verify_and_fix_memory`.

`parsed` is the result of `json.load` on the memory file (`none` models
`json.JSONDecodeError`).  `llmFixed` is the result of
`json.loads(self.app.personality.generate_code(fix_prompt, ...))`
(`none` models a decode error on the LLM output); it is only consulted
on the repair path, matching the source where the LLM is only invoked
inside the `except` clause. -/
def verify_and_fix_memory (parsed : Option JVal) (llmFixed : Option JVal) : JVal :=
  match parsed with
  | some m =>
    if memoryWellFormedTop m then
      match m.getKey "b" with
      | some b => if b.isDict then m else m.setKey "b" defaultBond
      | none => m
    else
      llmFixed.getD defaultMemory
  | none => llmFixed.getD defaultMemory

/-- The structural validity predicate stated by the specification:
exactly the six required top-level keys, with the bond a single object. -/
def claimStructValid (v : JVal) : Bool :=
  match v with
  | .obj fs =>
    expectedKeys.all (fun k => fs.any (fun p => p.1 == k)) &&
    fs.all (fun p => expectedKeys.contains p.1) &&
    (match jGet fs "b" with
     | some b => b.isDict
     | none => false)
  | _ => false

/-! ### Memory update commands (`process_output`)

`process_output` parses the LLM output into a commands object and
iterates its `add`, `update` and `remove` lists.  Each command runs in
its own `try`/`except`, so a command that raises leaves the document
unchanged and processing continues; a command whose own dict is
malformed (missing `section`, `entry` or `id`) likewise only skips
itself, so the batch is modelled as a list of already-destructured
commands. -/

inductive Cmd where
  | addC : String → JVal → Cmd
  | updateC : String → JVal → Cmd
  | removeC : String → JVal → Cmd

/-- `entry["id"]`; `none` models the `KeyError`/`TypeError` raised when
the value is not a dict with an `id` key. -/
def entryId (e : JVal) : Option JVal :=
  e.getKey "id"

/-- The `add` branch: `if section != "b": memory_json[section].append(entry)`.
A missing section (`KeyError`) or a non-list section value
(`AttributeError` on `.append`) raises and is caught, leaving the
document unchanged. -/
def applyAdd (m : JVal) (sec : String) (entry : JVal) : JVal :=
  if sec = "b" then m
  else
    match m.getKey sec with
    | some (.arr xs) => m.setKey sec (.arr (xs ++ [entry]))
    | _ => m

/-- One pass of the `update` scan
`for i, existing in enumerate(memory_json[section]): if existing["id"] == entry_id: ...`.
`none` models an exception while scanning (an element without an `id`),
which aborts the command before any element is replaced; on a match the
element is replaced and the loop breaks, so later elements are never
inspected. -/
def updateById (eid : JVal) (entry : JVal) : List JVal → Option (List JVal)
  | [] => some []
  | x :: xs =>
    match entryId x with
    | none => none
    | some xid =>
      if xid == eid then some (entry :: xs)
      else (updateById eid entry xs).map (fun ys => x :: ys)

/-- The `update` branch.  Updating section `"b"` assigns the entry
directly (`memory_json["b"] = entry`), with no validation of the entry.
For any other section the entry id is fetched first (`entry["id"]`),
then the list is scanned; any exception is caught and leaves the
document unchanged.  A non-list section value either raises on its first
element or completes without a match, so it is also unchanged. -/
def applyUpdate (m : JVal) (sec : String) (entry : JVal) : JVal :=
  if sec = "b" then m.setKey "b" entry
  else
    match entryId entry with
    | none => m
    | some eid =>
      match m.getKey sec with
      | some (.arr xs) =>
        match updateById eid entry xs with
        | some ys => m.setKey sec (.arr ys)
        | none => m
      | _ => m

/-- The list comprehension
`[e for e in memory_json[section] if e["id"] != entry_id]`.
It is evaluated in full before the assignment, so an element without an
`id` key (`none`) aborts the whole command with no change. -/
def removeById (eid : JVal) : List JVal → Option (List JVal)
  | [] => some []
  | x :: xs =>
    match entryId x with
    | none => none
    | some xid =>
      (removeById eid xs).map (fun ys => if xid == eid then ys else x :: ys)

/-- Python iteration over a JSON value, as used by the `remove`
comprehension: lists yield their elements, dicts yield their keys,
strings yield their characters, everything else raises `TypeError`
(`none`). -/
def pyIterate : JVal → Option (List JVal)
  | .arr xs => some xs
  | .obj fs => some (fs.map (fun p => JVal.str p.1))
  | .str s => some (s.data.map (fun c => JVal.str (String.singleton c)))
  | _ => none

/-- The `remove` branch: `if section != "b"` guards the whole body, so a
removal targeting the bond does nothing at all.  Otherwise the filtered
list replaces the section; any exception (missing section, non-iterable
value, element without `id`) is caught and leaves the document
unchanged. -/
def applyRemove (m : JVal) (sec : String) (eid : JVal) : JVal :=
  if sec = "b" then m
  else
    match m.getKey sec with
    | some v =>
      match pyIterate v >>= removeById eid with
      | some ys => m.setKey sec (.arr ys)
      | none => m
    | none => m

/-- One command of a `process_output` batch. -/
def applyCmd (m : JVal) : Cmd → JVal
  | .addC sec entry => applyAdd m sec entry
  | .updateC sec entry => applyUpdate m sec entry
  | .removeC sec eid => applyRemove m sec eid

/-- A whole batch: the source iterates all `add` commands, then all
`update` commands, then all `remove` commands; flattening that order
into one list is faithful because each command acts independently. -/
def applyCmds (m : JVal) (cs : List Cmd) : JVal :=
  cs.foldl applyCmd m

/-- The document persisted by `process_output`: the loaded (and
possibly repaired) memory with the whole command batch applied. -/
def processOutputMemory (parsed llmFixed : Option JVal) (cs : List Cmd) : JVal :=
  applyCmds (verify_and_fix_memory parsed llmFixed) cs

/-- Whether the document's bond value is a single object. -/
def bondIsDict (m : JVal) : Bool :=
  match m.getKey "b" with
  | some b => b.isDict
  | none => false

/-- The only command shape able to change the bond: an `update` targeting
section `"b"`; it breaks the bond invariant exactly when its entry is not
an object. -/
def breaksBond : Cmd → Bool
  | .updateC sec entry => sec == "b" && !entry.isDict
  | _ => false

/-- Whether `x["id"] == eid` holds for an element of a section list. -/
def matchesId (eid : JVal) (x : JVal) : Bool :=
  match entryId x with
  | some xid => xid == eid
  | none => false

/-! ### Lemmas about dict lookup and assignment -/

theorem jGet_jSet_self (k : String) (v : JVal) :
    ∀ fs : List (String × JVal), jGet (jSet fs k v) k = some v := by
  intro fs
  induction fs with
  | nil => simp [jGet, jSet, List.find?]
  | cons p ps ih =>
    by_cases hp : (p.1 == k) = true
    · simp [jGet, jSet, hp, List.find?]
    · simp only [jSet, hp, Bool.false_eq_true, if_false]
      simp only [jGet] at ih ⊢
      rw [List.find?_cons_of_neg _ (by simp [hp])]
      exact ih

theorem jGet_jSet_ne (k k' : String) (v : JVal) (hne : k' ≠ k) :
    ∀ fs : List (String × JVal), jGet (jSet fs k v) k' = jGet fs k' := by
  have hkk' : (k == k') = false := beq_eq_false_iff_ne.mpr (fun h => hne h.symm)
  intro fs
  induction fs with
  | nil => simp [jGet, jSet, List.find?, hkk']
  | cons p ps ih =>
    by_cases hp : (p.1 == k) = true
    · have hpk' : (p.1 == k') = false := by
        have hpe : p.1 = k := by simpa using hp
        simp [hpe, hkk']
      simp [jGet, jSet, hp, hpk', hkk', List.find?]
    · simp only [jSet, hp, Bool.false_eq_true, if_false]
      by_cases hq : (p.1 == k') = true
      · simp [jGet, List.find?, hq]
      · simp only [jGet] at ih ⊢
        rw [List.find?_cons_of_neg _ (by simp [hq]),
            List.find?_cons_of_neg _ (by simp [hq])]
        exact ih

theorem getKey_setKey_self (m : JVal) (k : String) (v : JVal)
    (hm : m.isDict = true) : (m.setKey k v).getKey k = some v := by
  cases m with
  | obj fs => exact jGet_jSet_self k v fs
  | null => simp [JVal.isDict] at hm
  | bool b => simp [JVal.isDict] at hm
  | num n => simp [JVal.isDict] at hm
  | str s => simp [JVal.isDict] at hm
  | arr xs => simp [JVal.isDict] at hm

theorem getKey_setKey_ne (m : JVal) (k k' : String) (v : JVal)
    (hne : k' ≠ k) : (m.setKey k v).getKey k' = m.getKey k' := by
  cases m with
  | obj fs => exact jGet_jSet_ne k k' v hne fs
  | null => rfl
  | bool b => rfl
  | num n => rfl
  | str s => rfl
  | arr xs => rfl

theorem isDict_of_getKey_some (m : JVal) (k : String) (x : JVal)
    (h : m.getKey k = some x) : m.isDict = true := by
  cases m with
  | obj fs => rfl
  | null => simp [JVal.getKey] at h
  | bool b => simp [JVal.getKey] at h
  | num n => simp [JVal.getKey] at h
  | str s => simp [JVal.getKey] at h
  | arr xs => simp [JVal.getKey] at h

/-! ### Claim C1 -/

/-- C1 counterexample: on a memory file that does not parse, when the
LLM repair output parses to the empty JSON object,
`verify_and_fix_memory` returns that empty object — a structurally
invalid document that is not the empty-schema default. -/
theorem memory_repair_invalid_counterexample :
    parseMalformed none = true ∧
    verify_and_fix_memory none (some (JVal.obj [])) = JVal.obj [] ∧
    claimStructValid (JVal.obj []) = false ∧
    verify_and_fix_memory none (some (JVal.obj [])) ≠ defaultMemory := by
  refine ⟨rfl, rfl, rfl, ?_⟩
  simp [verify_and_fix_memory, defaultMemory, defaultBond]

/-- C1 (amended): for every malformed memory JSON input,
`verify_and_fix_memory` returns exactly the JSON value parsed from the
LLM repair output when that output parses, with no structural
validation, and otherwise the hardcoded empty-schema default, which is
structurally valid. -/
theorem memory_repair_malformed_result (parsed llmFixed : Option JVal)
    (h : parseMalformed parsed = true) :
    verify_and_fix_memory parsed llmFixed = llmFixed.getD defaultMemory ∧
    claimStructValid defaultMemory = true := by
  refine ⟨?_, rfl⟩
  cases parsed with
  | none => rfl
  | some m =>
    have hm : memoryWellFormedTop m = false := by
      simpa [parseMalformed] using h
    simp [verify_and_fix_memory, hm]

/-- Witness for the amended C1 at a concrete malformed input. -/
theorem memory_repair_malformed_result_witness :
    verify_and_fix_memory (some (JVal.arr [])) (some (JVal.num 7))
        = Option.getD (some (JVal.num 7)) defaultMemory ∧
    claimStructValid defaultMemory = true :=
  memory_repair_malformed_result (some (JVal.arr [])) (some (JVal.num 7)) rfl

/-! ### Claim C4 -/

/-- C4 counterexample: starting from the default (well-formed) memory, a
batch with a single `update` command targeting section `"b"` whose entry
is the empty JSON array persists a document whose bond is a list, not an
object. -/
theorem memory_bond_nonobject_counterexample :
    (processOutputMemory (some defaultMemory) none
        [Cmd.updateC "b" (JVal.arr [])]).getKey "b" = some (JVal.arr []) ∧
    JVal.isDict (JVal.arr []) = false := by
  exact ⟨rfl, rfl⟩

theorem bondIsDict_applyCmd (m : JVal) (c : Cmd)
    (hm : bondIsDict m = true) (hc : breaksBond c = false) :
    bondIsDict (applyCmd m c) = true := by
  obtain ⟨b, hb, hbd⟩ : ∃ b, m.getKey "b" = some b ∧ b.isDict = true := by
    unfold bondIsDict at hm
    cases hget : m.getKey "b" with
    | none => rw [hget] at hm; exact absurd hm (by simp)
    | some b => rw [hget] at hm; exact ⟨b, rfl, hm⟩
  have hmd : m.isDict = true := isDict_of_getKey_some m "b" b hb
  cases c with
  | addC sec entry =>
    show bondIsDict (applyAdd m sec entry) = true
    unfold applyAdd
    by_cases hsec : sec = "b"
    · simp [hsec, bondIsDict, hb, hbd]
    · simp only [hsec, if_false]
      cases hg : m.getKey sec with
      | none => simp [bondIsDict, hb, hbd]
      | some v =>
        cases v with
        | arr xs =>
          simp only [bondIsDict]
          rw [getKey_setKey_ne m sec "b" _ (fun heq => hsec heq.symm), hb]
          exact hbd
        | null => simp [bondIsDict, hb, hbd]
        | bool x => simp [bondIsDict, hb, hbd]
        | num x => simp [bondIsDict, hb, hbd]
        | str x => simp [bondIsDict, hb, hbd]
        | obj x => simp [bondIsDict, hb, hbd]
  | updateC sec entry =>
    show bondIsDict (applyUpdate m sec entry) = true
    unfold applyUpdate
    by_cases hsec : sec = "b"
    · have hent : entry.isDict = true := by
        simpa [breaksBond, hsec] using hc
      simp [hsec, bondIsDict, getKey_setKey_self m "b" entry hmd, hent]
    · simp only [hsec, if_false]
      cases entryId entry with
      | none => simp [bondIsDict, hb, hbd]
      | some eid =>
        cases hg : m.getKey sec with
        | none => simp [bondIsDict, hb, hbd]
        | some v =>
          cases v with
          | arr xs =>
            cases hup : updateById eid entry xs with
            | none => simp [hup, bondIsDict, hb, hbd]
            | some ys =>
              simp only [hup, bondIsDict]
              rw [getKey_setKey_ne m sec "b" _ (fun hekq => hsec hekq.symm), hb]
              exact hbd
          | null => simp [bondIsDict, hb, hbd]
          | bool x => simp [bondIsDict, hb, hbd]
          | num x => simp [bondIsDict, hb, hbd]
          | str x => simp [bondIsDict, hb, hbd]
          | obj x => simp [bondIsDict, hb, hbd]
  | removeC sec eid =>
    show bondIsDict (applyRemove m sec eid) = true
    unfold applyRemove
    by_cases hsec : sec = "b"
    · simp [hsec, bondIsDict, hb, hbd]
    · simp only [hsec, if_false]
      cases hg : m.getKey sec with
      | none => simp [bondIsDict, hb, hbd]
      | some v =>
        cases hit : pyIterate v >>= removeById eid with
        | none => simp [hit, bondIsDict, hb, hbd]
        | some ys =>
          simp only [hit, bondIsDict]
          rw [getKey_setKey_ne m sec "b" _ (fun hekq => hsec hekq.symm), hb]
          exact hbd

/-- C4 (amended): loading a well-formed document repairs a non-object
bond, and the bond stays a single object across every batch, except
that an `update` command targeting `"b"` installs its entry unvalidated
— so the invariant holds for every batch whose bond updates (if any)
carry object entries, while `add` and `remove` can never change the
bond. -/
theorem memory_bond_object_invariant :
    (∀ (m : JVal) (llm : Option JVal), memoryWellFormedTop m = true →
        bondIsDict (verify_and_fix_memory (some m) llm) = true) ∧
    (∀ (m : JVal) (cs : List Cmd), bondIsDict m = true →
        (∀ c ∈ cs, breaksBond c = false) →
        bondIsDict (applyCmds m cs) = true) := by
  constructor
  · intro m llm hwf
    have hmd : m.isDict = true := by
      unfold memoryWellFormedTop at hwf
      exact (Bool.and_eq_true _ _ |>.mp hwf).1
    have hkb : m.hasKey "b" = true := by
      unfold memoryWellFormedTop expectedKeys at hwf
      have := (Bool.and_eq_true _ _ |>.mp hwf).2
      simp [List.all_cons] at this
      exact this.2.1
    obtain ⟨b, hb⟩ : ∃ b, m.getKey "b" = some b := by
      unfold JVal.hasKey at hkb
      cases hget : m.getKey "b" with
      | none => rw [hget] at hkb; exact absurd hkb (by simp)
      | some b => exact ⟨b, rfl⟩
    by_cases hbd : b.isDict = true
    · simp [verify_and_fix_memory, hwf, hb, hbd, bondIsDict]
    · simp only [Bool.not_eq_true] at hbd
      have hv : verify_and_fix_memory (some m) llm = m.setKey "b" defaultBond := by
        simp [verify_and_fix_memory, hwf, hb, hbd]
      rw [hv]
      unfold bondIsDict
      rw [getKey_setKey_self m "b" defaultBond hmd]
      rfl
  · intro m cs
    induction cs generalizing m with
    | nil => intro hm _; exact hm
    | cons c cs ih =>
      intro hm hcs
      have h1 := bondIsDict_applyCmd m c hm (hcs c (List.mem_cons_self c cs))
      exact ih (applyCmd m c) h1 (fun c' hc' => hcs c' (List.mem_cons_of_mem c hc'))

/-- Witness for C4 (amended) at concrete inputs. -/
theorem memory_bond_object_invariant_witness :
    bondIsDict (verify_and_fix_memory
        (some (JVal.obj [("i", JVal.arr []), ("b", JVal.arr []), ("n", JVal.arr []),
                         ("k", JVal.arr []), ("sys", JVal.arr []), ("s", JVal.arr [])]))
        none) = true ∧
    bondIsDict (applyCmds defaultMemory
        [Cmd.addC "i" (JVal.obj [("id", JVal.str "int_001")]),
         Cmd.updateC "b" defaultBond,
         Cmd.removeC "i" (JVal.str "int_001")]) = true := by
  constructor
  · exact memory_bond_object_invariant.1 _ none rfl
  · exact memory_bond_object_invariant.2 _ _ rfl (by decide)

/-! ### Claim C5 -/

theorem removeById_all_ids (eid : JVal) :
    ∀ xs : List JVal, (∀ x ∈ xs, (entryId x).isSome = true) →
    removeById eid xs = some (xs.filter (fun x => !matchesId eid x)) := by
  intro xs
  induction xs with
  | nil => intro _; rfl
  | cons x xs ih =>
    intro h
    obtain ⟨xid, hx⟩ : ∃ xid, entryId x = some xid := by
      have := h x (List.mem_cons_self x xs)
      cases hg : entryId x with
      | none => rw [hg] at this; exact absurd this (by simp)
      | some xid => exact ⟨xid, rfl⟩
    have htl := ih (fun y hy => h y (List.mem_cons_of_mem x hy))
    by_cases hm : (xid == eid) = true
    · simp [removeById, hx, htl, List.filter_cons, matchesId, hm]
    · simp only [Bool.not_eq_true] at hm
      simp [removeById, hx, htl, List.filter_cons, matchesId, hm]

/-- C5: a `remove` command targeting the bond section leaves the whole
document unchanged (removal on bond is a no-op), while a `remove`
targeting a list section deletes exactly the entries whose id matches
the command's id, keeping all other entries and leaving every other
section unchanged. -/
theorem memory_remove_semantics (m : JVal) (eid : JVal) :
    applyCmd m (Cmd.removeC "b" eid) = m ∧
    (∀ (sec : String) (xs : List JVal), sec ≠ "b" →
      m.getKey sec = some (JVal.arr xs) →
      (∀ x ∈ xs, (entryId x).isSome = true) →
      (applyCmd m (Cmd.removeC sec eid)).getKey sec
          = some (JVal.arr (xs.filter (fun x => !matchesId eid x))) ∧
      (∀ k, k ≠ sec →
        (applyCmd m (Cmd.removeC sec eid)).getKey k = m.getKey k)) := by
  constructor
  · show applyRemove m "b" eid = m
    unfold applyRemove
    simp
  · intro sec xs hsec hget hids
    have hmd : m.isDict = true := isDict_of_getKey_some m sec _ hget
    have hstep : applyCmd m (Cmd.removeC sec eid)
        = m.setKey sec (.arr (xs.filter (fun x => !matchesId eid x))) := by
      show applyRemove m sec eid = _
      unfold applyRemove
      simp [hsec, hget, pyIterate, removeById_all_ids eid xs hids]
    constructor
    · rw [hstep]
      exact getKey_setKey_self m sec _ hmd
    · intro k hk
      rw [hstep]
      exact getKey_setKey_ne m sec k _ hk

/-- Witness for C5 at a concrete document and command. -/
theorem memory_remove_semantics_witness :
    applyCmd (JVal.obj [("i", JVal.arr [JVal.obj [("id", JVal.str "int_001")],
                                        JVal.obj [("id", JVal.str "int_002")]]),
                        ("b", defaultBond)])
        (Cmd.removeC "b" (JVal.str "bond_001"))
      = JVal.obj [("i", JVal.arr [JVal.obj [("id", JVal.str "int_001")],
                                  JVal.obj [("id", JVal.str "int_002")]]),
                  ("b", defaultBond)] ∧
    (applyCmd (JVal.obj [("i", JVal.arr [JVal.obj [("id", JVal.str "int_001")],
                                         JVal.obj [("id", JVal.str "int_002")]]),
                         ("b", defaultBond)])
        (Cmd.removeC "i" (JVal.str "int_001"))).getKey "i"
      = some (JVal.arr [JVal.obj [("id", JVal.str "int_002")]]) := by
  constructor
  · exact (memory_remove_semantics
      (JVal.obj [("i", JVal.arr [JVal.obj [("id", JVal.str "int_001")],
                                 JVal.obj [("id", JVal.str "int_002")]]),
                 ("b", defaultBond)]) (JVal.str "bond_001")).1
  · exact ((memory_remove_semantics
      (JVal.obj [("i", JVal.arr [JVal.obj [("id", JVal.str "int_001")],
                                 JVal.obj [("id", JVal.str "int_002")]]),
                 ("b", defaultBond)]) (JVal.str "int_001")).2 "i"
      [JVal.obj [("id", JVal.str "int_001")], JVal.obj [("id", JVal.str "int_002")]]
      (by decide) rfl
      (by intro x hx
          simp only [List.mem_cons, List.not_mem_nil, or_false] at hx
          rcases hx with rfl | rfl <;> rfl)).1

/-! ## Function call builder: generation / reflection / correction loop
(`development/build_lollms_function_call/function.py`,
`FunctionCallBuilder._run_generation_loop`)

The loop is driven by two LLM calls per iteration, modelled as oracles:
`reflect i content` is the parsed reflection JSON for iteration `i` —
`some v` when `find_first_json_block` (or the `json.loads` fallback)
yields the value `v`, `none` when the output is falsy, not a string, or
fails both parses; `correct i content` is the corrected content produced
by the correction call (`none` when generation fails).

The guard `if not reflection_data or "num_problems_detected" not in
reflection_data:` and the following `reflection_data.get(...)` and
`num_problems < min_problems` are faithful to Python semantics per value
shape, including the uncaught exceptions: a truthy non-dict value makes
`in` raise `TypeError` (numbers, booleans) or makes `.get` raise
`AttributeError` (strings or lists that do contain
`"num_problems_detected"`), and a dict field value that is not a number
makes the `<` comparison against `float('inf')` raise `TypeError`.
Those exceptions escape `_run_generation_loop` (they are only caught by
the caller), so the loop has a raising outcome distinct from returning a
result.

The Python `for i in range(self.max_correction_iterations)` is compiled
to structural recursion on the remaining iteration count `fuel`
(`fuel = maxIter - i` at every call), with the source's tests `i == 0`
and `i == self.max_correction_iterations - 1` kept verbatim on the
absolute index `i`.  `minProblems = none` models the initial
`float('inf')`.  The `reports` field is ghost instrumentation recording,
in order, each successfully extracted reflection as
(content evaluated, reported problem count); it is written exactly where
the source logs the reflection and affects nothing else. -/

structure LoopResult where
  best : String
  iterationsDone : Nat
  minProblems : Option Int
  reports : List (String × Int)

/-- How `_run_generation_loop` ends: returning its triple, or an
uncaught `TypeError`/`AttributeError` escaping to the caller. -/
inductive LoopOutcome where
  | done : LoopResult → LoopOutcome
  | raised : LoopOutcome

/-- Python falsiness (`not x`) of a parsed JSON value. -/
def pyFalsy : JVal → Bool
  | .null => true
  | .bool b => !b
  | .num n => n == 0
  | .str s => s.isEmpty
  | .arr xs => xs.isEmpty
  | .obj fs => fs.isEmpty

/-- Whether `pat` occurs as a contiguous substring, the semantics of
Python `pat in s` on strings. -/
def hasSubstr (pat : List Char) : List Char → Bool
  | [] => pat.isEmpty
  | c :: cs => pat.isPrefixOf (c :: cs) || hasSubstr pat cs

/-- How one reflection result steers the loop. -/
inductive ReflectionStep where
  | stop : ReflectionStep
  | report : Int → ReflectionStep
  | raiseExc : ReflectionStep

/-- The fate of `reflection_data` at the guard and extraction:

* `stop`: the guard `not reflection_data or "num_problems_detected" not
  in reflection_data` is true — no parse, a falsy value, a dict without
  the field, or a truthy string/list in which `in` does not find
  `"num_problems_detected"` — and the loop breaks gracefully;
* `report n`: a truthy dict carries the field with a numeric value
  (booleans count as 1/0, as in Python), and the loop proceeds;
* `raiseExc`: an uncaught exception — `in` on a truthy number or
  boolean (`TypeError`), `.get` on a string or list that passed the
  guard (`AttributeError`), or a non-numeric field value hitting
  `num_problems < min_problems` (`TypeError`). -/
def reflectionStep (data : Option JVal) : ReflectionStep :=
  match data with
  | none => .stop
  | some v =>
    if pyFalsy v then .stop
    else
      match v with
      | .obj fs =>
        match jGet fs "num_problems_detected" with
        | none => .stop
        | some (.num n) => .report n
        | some (.bool b) => .report (if b then 1 else 0)
        | some _ => .raiseExc
      | .str s =>
        if hasSubstr "num_problems_detected".data s.data then .raiseExc else .stop
      | .arr xs =>
        if xs.any (fun x => x == JVal.str "num_problems_detected") then .raiseExc
        else .stop
      | _ => .raiseExc

/-- `num_problems < min_problems` where `none` is `float('inf')`. -/
def ltMin (n : Int) : Option Int → Bool
  | none => true
  | some m => n < m

def runGenerationLoopAux (reflect : Nat → String → Option JVal)
    (correct : Nat → String → Option String) (maxIter : Nat) :
    Nat → Nat → String → String → Option Int → List (String × Int) → LoopOutcome
  | 0, i, _current, best, minP, reports =>
    .done { best := best, iterationsDone := i, minProblems := minP, reports := reports }
  | fuel + 1, i, current, best, minP, reports =>
    match reflectionStep (reflect i current) with
    | .raiseExc => .raised
    | .stop =>
      .done { best := best, iterationsDone := i + 1,
              minProblems := if i = 0 then some 0 else minP, reports := reports }
    | .report n =>
      let best' := if ltMin n minP then current else best
      let minP' := if ltMin n minP then some n else minP
      let reports' := reports ++ [(current, n)]
      if n = 0 then
        .done { best := best', iterationsDone := i + 1, minProblems := minP',
                reports := reports' }
      else if i = maxIter - 1 then
        .done { best := best', iterationsDone := i + 1, minProblems := minP',
                reports := reports' }
      else
        match correct i current with
        | none =>
          .done { best := best', iterationsDone := i + 1, minProblems := minP',
                  reports := reports' }
        | some c =>
          runGenerationLoopAux reflect correct maxIter fuel (i + 1) c best' minP' reports'

/-- `_run_generation_loop` after the initial generation produced
`initial`: `best_content = current_content`, `min_problems = inf`,
`iterations_done = 0`, then the loop. -/
def runGenerationLoop (reflect : Nat → String → Option JVal)
    (correct : Nat → String → Option String) (maxIter : Nat)
    (initial : String) : LoopOutcome :=
  runGenerationLoopAux reflect correct maxIter maxIter 0 initial initial none []

/-- The best-so-far invariant maintained by the loop state. -/
def LoopInv (best : String) (minP : Option Int) (reports : List (String × Int)) : Prop :=
  (minP = none → reports = []) ∧
  ∀ m, minP = some m →
    ((∃ p ∈ reports, p.1 = best ∧ p.2 = m) ∧ ∀ q ∈ reports, m ≤ q.2)

theorem LoopInv.start (s : String) : LoopInv s none [] :=
  ⟨fun _ => rfl, fun _ h => Option.noConfusion h⟩

/-- Recording one reflection result preserves the invariant. -/
theorem LoopInv.step (best current : String) (minP : Option Int)
    (reports : List (String × Int)) (n : Int) (h : LoopInv best minP reports) :
    LoopInv (if ltMin n minP then current else best)
      (if ltMin n minP then some n else minP)
      (reports ++ [(current, n)]) := by
  by_cases hlt : ltMin n minP = true
  · rw [if_pos hlt, if_pos hlt]
    refine ⟨fun hc => Option.noConfusion hc, fun m hm => ?_⟩
    have hmn : m = n := by injection hm with h12; exact h12.symm
    subst hmn
    refine ⟨⟨(current, m), List.mem_append_right _ (by simp), rfl, rfl⟩, ?_⟩
    intro q hq
    rcases List.mem_append.mp hq with hq | hq
    · cases hp : minP with
      | none => rw [h.1 hp] at hq; cases hq
      | some m0 =>
        have hn : m < m0 := by simpa [ltMin, hp] using hlt
        have := ((h.2 m0 hp).2) q hq
        omega
    · simp only [List.mem_singleton] at hq
      subst hq
      exact le_refl m
  · rw [if_neg hlt, if_neg hlt]
    cases hp : minP with
    | none => exact absurd (by simp [ltMin, hp]) hlt
    | some m0 =>
      subst hp
      have hm0n : m0 ≤ n := by
        have : ¬ n < m0 := by simpa [ltMin] using hlt
        omega
      refine ⟨fun hc => Option.noConfusion hc, fun m hm => ?_⟩
      have hmm0 : m = m0 := by injection hm with h12; exact h12.symm
      subst hmm0
      obtain ⟨⟨p, hpmem, hpb, hpm⟩, hall⟩ := h.2 m rfl
      refine ⟨⟨p, List.mem_append_left _ hpmem, hpb, hpm⟩, ?_⟩
      intro q hq
      rcases List.mem_append.mp hq with hq | hq
      · exact hall q hq
      · simp only [List.mem_singleton] at hq
        subst hq
        exact hm0n

/-- What the loop guarantees about a returned result. -/
def LoopFinal (r : LoopResult) : Prop :=
  r.reports ≠ [] → ∃ m, r.minProblems = some m ∧
    (∃ p ∈ r.reports, p.1 = r.best ∧ p.2 = m) ∧ ∀ q ∈ r.reports, m ≤ q.2

/-- `LoopFinal` lifted to outcomes: a raising run returns nothing to
constrain. -/
def LoopOutcomeFinal : LoopOutcome → Prop
  | .done r => LoopFinal r
  | .raised => True

theorem loopFinal_of_inv (b : String) (k : Nat) (mp : Option Int)
    (rs : List (String × Int)) (h : LoopInv b mp rs) :
    LoopFinal ⟨b, k, mp, rs⟩ := by
  intro hne
  cases hp : mp with
  | none => exact absurd (h.1 hp) hne
  | some m =>
    obtain ⟨hex, hall⟩ := h.2 m hp
    exact ⟨m, rfl, hex, hall⟩

theorem runGenerationLoopAux_final (reflect : Nat → String → Option JVal)
    (correct : Nat → String → Option String) (maxIter : Nat) :
    ∀ (fuel i : Nat) (current best : String) (minP : Option Int)
      (reports : List (String × Int)),
      (i = 0 → reports = []) → LoopInv best minP reports →
      LoopOutcomeFinal
        (runGenerationLoopAux reflect correct maxIter fuel i current best minP reports) := by
  intro fuel
  induction fuel with
  | zero =>
    intro i current best minP reports _ hinv
    exact loopFinal_of_inv best i minP reports hinv
  | succ fuel ih =>
    intro i current best minP reports hzero hinv
    rw [runGenerationLoopAux]
    cases hr : reflectionStep (reflect i current) with
    | raiseExc => trivial
    | stop =>
      by_cases hi : i = 0
      · subst hi
        simp only [if_pos rfl]
        intro hne
        exact absurd (hzero rfl) hne
      · simp only [if_neg hi]
        exact loopFinal_of_inv best (i + 1) minP reports hinv
    | report n =>
      have hstep := LoopInv.step best current minP reports n hinv
      by_cases hn : n = 0
      · simp only [hn, if_pos rfl]
        exact loopFinal_of_inv _ (i + 1) _ _ (by simpa [hn] using hstep)
      · simp only [if_neg hn]
        by_cases hlast : i = maxIter - 1
        · simp only [if_pos hlast]
          exact loopFinal_of_inv _ (i + 1) _ _ hstep
        · simp only [if_neg hlast]
          cases hc : correct i current with
          | none => exact loopFinal_of_inv _ (i + 1) _ _ hstep
          | some c => exact ih (i + 1) c _ _ _ (fun h => by omega) hstep

/-- C2: whatever per-iteration problem counts the evaluator reports, any
result the refinement loop returns (a raising run returns none) carries
as best an attempt whose reported problem count equals the minimum over
all evaluated iterations, so it is less than or equal to the count
reported for every evaluated iteration's content. -/
theorem generation_loop_returns_best (reflect : Nat → String → Option JVal)
    (correct : Nat → String → Option String) (maxIter : Nat) (initial : String)
    (r : LoopResult)
    (hret : runGenerationLoop reflect correct maxIter initial = LoopOutcome.done r)
    (hne : r.reports ≠ []) :
    ∃ m, r.minProblems = some m ∧
      (∃ p ∈ r.reports, p.1 = r.best ∧ p.2 = m) ∧
      ∀ q ∈ r.reports, m ≤ q.2 := by
  have hfinal := runGenerationLoopAux_final reflect correct maxIter maxIter 0
    initial initial none [] (fun _ => rfl) (LoopInv.start initial)
  rw [show runGenerationLoopAux reflect correct maxIter maxIter 0 initial initial none []
        = runGenerationLoop reflect correct maxIter initial from rfl, hret] at hfinal
  exact hfinal hne

/-- Witness for C2: two iterations report 3 then 1 problems; the second
attempt is returned with count 1. -/
theorem generation_loop_returns_best_witness :
    ∃ m, (LoopResult.mk "ax" 2 (some 1) [("a", 3), ("ax", 1)]).minProblems = some m ∧
      (∃ p ∈ (LoopResult.mk "ax" 2 (some 1) [("a", 3), ("ax", 1)]).reports,
        p.1 = (LoopResult.mk "ax" 2 (some 1) [("a", 3), ("ax", 1)]).best ∧ p.2 = m) ∧
      ∀ q ∈ (LoopResult.mk "ax" 2 (some 1) [("a", 3), ("ax", 1)]).reports, m ≤ q.2 :=
  generation_loop_returns_best
    (fun i _ => some (JVal.obj
      [("num_problems_detected", JVal.num (if i = 0 then 3 else 1))]))
    (fun _ c => some (c ++ "x")) 2 "a"
    (LoopResult.mk "ax" 2 (some 1) [("a", 3), ("ax", 1)]) rfl (by decide)

/-- C3 counterexample: a reflection output that is the bare JSON number
`5` cannot be parsed into JSON containing a `num_problems_detected`
field, yet the loop does not stop gracefully with the best content:
`"num_problems_detected" not in 5` raises an uncaught `TypeError`, so
the run raises instead of returning any result. -/
theorem generation_loop_malformed_reflection_counterexample :
    reflectionStep (some (JVal.num 5)) = ReflectionStep.raiseExc ∧
    runGenerationLoop (fun _ _ => some (JVal.num 5)) (fun _ c => some c) 3 "content"
      = LoopOutcome.raised ∧
    runGenerationLoop (fun _ _ => some (JVal.num 5)) (fun _ c => some c) 3 "content"
      ≠ LoopOutcome.done (LoopResult.mk "content" 1 (some 0) []) :=
  ⟨rfl, rfl, fun h => LoopOutcome.noConfusion h⟩

/-- C3 (amended): when a reflection yields output whose parse is falsy,
fails, or is a dict without a `num_problems_detected` field (or a truthy
string or list in which `in` does not find that key), the loop stops
immediately — best content so far returned, iteration counter advanced
once, no further reflection recorded, no correction attempted, and the
reported minimum forced to 0 on a first-iteration failure.  But when the
parse is a truthy number or boolean, a string or list that does contain
the key, or a dict whose field value is not a number, the membership
test, `.get` or `<` comparison raises an uncaught exception and the loop
aborts without returning the best content. -/
theorem generation_loop_reflection_handling
    (reflect : Nat → String → Option JVal) (correct : Nat → String → Option String)
    (maxIter fuel i : Nat) (current best : String) (minP : Option Int)
    (reports : List (String × Int)) :
    (reflectionStep (reflect i current) = ReflectionStep.stop →
      runGenerationLoopAux reflect correct maxIter (fuel + 1) i current best minP reports
        = LoopOutcome.done
            (LoopResult.mk best (i + 1) (if i = 0 then some 0 else minP) reports)) ∧
    (reflectionStep (reflect i current) = ReflectionStep.raiseExc →
      runGenerationLoopAux reflect correct maxIter (fuel + 1) i current best minP reports
        = LoopOutcome.raised) := by
  constructor
  · intro h
    rw [runGenerationLoopAux, h]
  · intro h
    rw [runGenerationLoopAux, h]

/-- Witness for the amended C3: an unparseable reflection stops the loop
after one iteration returning the initial content, while a bare-number
reflection makes the same loop raise. -/
theorem generation_loop_reflection_handling_witness :
    runGenerationLoopAux (fun _ _ => none) (fun _ c => some c) 5 5 0 "a" "a" none []
      = LoopOutcome.done
          (LoopResult.mk "a" 1 (if 0 = 0 then some 0 else none) []) ∧
    runGenerationLoopAux (fun _ _ => some (JVal.num 5)) (fun _ c => some c)
        5 5 0 "a" "a" none []
      = LoopOutcome.raised :=
  ⟨(generation_loop_reflection_handling (fun _ _ => none) (fun _ c => some c)
      5 4 0 "a" "a" none []).1 rfl,
   (generation_loop_reflection_handling (fun _ _ => some (JVal.num 5)) (fun _ c => some c)
      5 4 0 "a" "a" none []).2 rfl⟩

/-! ## Deep search (`data_search/deep_search/function.py`, `DeepSearch.update_context`)

The iterative search loop over `for iteration in range(max_iterations)`.
`search i q` models `self._perform_search(engine, q, depth, timeout)` at
iteration `i` (a deterministic stub engine); `analyze i q results` models
the LLM analysis step, already reduced to the three extracted components
the loop consumes: the summary, the follow-up query (`none` when the
`FOLLOW_UP_QUERY:` regex finds nothing, in which case the current query is
kept) and the `SUFFICIENT: yes` flag.  As for the generation loop, the
`for` is compiled to structural recursion on the remaining iteration
count with the source's `iteration == max_iterations - 1` test kept on
the absolute index. -/

structure SearchResult where
  title : String
  url : String
  content : String
deriving DecidableEq

structure Analysis where
  summary : String
  followUp : Option String
  sufficient : Bool

structure DeepSearchRun where
  allResults : List SearchResult
  summaries : List String
  iterations : Nat

def deepSearchAux (search : Nat → String → List SearchResult)
    (analyze : Nat → String → List SearchResult → Analysis)
    (maxIterations : Nat) :
    Nat → Nat → String → List SearchResult → List String → DeepSearchRun
  | 0, i, _query, acc, sums => ⟨acc, sums, i⟩
  | fuel + 1, i, q, acc, sums =>
    let results := search i q
    if results = [] then ⟨acc, sums, i + 1⟩
    else
      let acc' := acc ++ results
      let a := analyze i q results
      let sums' := sums ++ [a.summary]
      if a.sufficient || i = maxIterations - 1 then ⟨acc', sums', i + 1⟩
      else deepSearchAux search analyze maxIterations fuel (i + 1)
        (a.followUp.getD q) acc' sums'

/-- The whole loop of `update_context`, starting from the user query with
empty accumulators. -/
def deepSearch (search : Nat → String → List SearchResult)
    (analyze : Nat → String → List SearchResult → Analysis)
    (maxIterations : Nat) (query : String) : DeepSearchRun :=
  deepSearchAux search analyze maxIterations maxIterations 0 query [] []

/-- One step of building `unique_sources`:
`if result['url'] not in unique_sources: unique_sources[result['url']] = result['title']`
(Python dicts keep insertion order, so the dict is an ordered list of
url/title pairs). -/
def sourceStep (acc : List (String × String)) (r : SearchResult) :
    List (String × String) :=
  if acc.any (fun p => p.1 == r.url) then acc else acc ++ [(r.url, r.title)]

/-- The `unique_sources` dict built from `all_results`, in order. -/
def uniqueSources (rs : List SearchResult) : List (String × String) :=
  rs.foldl sourceStep []

theorem mem_keys_sourceStep (acc : List (String × String)) (r : SearchResult)
    (u : String) :
    (u ∈ (sourceStep acc r).map Prod.fst) ↔ u ∈ acc.map Prod.fst ∨ u = r.url := by
  unfold sourceStep
  by_cases hany : acc.any (fun p => p.1 == r.url) = true
  · rw [if_pos hany]
    constructor
    · exact Or.inl
    · rintro (h | heq)
      · exact h
      · obtain ⟨p, hp, hpu⟩ := List.any_eq_true.mp hany
        have hpr : p.1 = r.url := by simpa using hpu
        exact List.mem_map.mpr ⟨p, hp, hpr.trans heq.symm⟩
  · rw [if_neg hany]
    simp [List.map_append]

theorem nodup_keys_uniqAux :
    ∀ (rs : List SearchResult) (acc : List (String × String)),
    (acc.map Prod.fst).Nodup → ((rs.foldl sourceStep acc).map Prod.fst).Nodup := by
  intro rs
  induction rs with
  | nil => intro acc h; exact h
  | cons r rs ih =>
    intro acc h
    simp only [List.foldl_cons]
    apply ih
    unfold sourceStep
    by_cases hany : acc.any (fun p => p.1 == r.url) = true
    · rw [if_pos hany]; exact h
    · rw [if_neg hany]
      have hnot : r.url ∉ acc.map Prod.fst := by
        intro hmem
        obtain ⟨p, hp, hpu⟩ := List.mem_map.mp hmem
        exact hany (List.any_eq_true.mpr ⟨p, hp, by simp [hpu]⟩)
      simp only [List.map_append, List.map_cons, List.map_nil]
      rw [List.nodup_append]
      refine ⟨h, List.nodup_singleton _, ?_⟩
      intro a ha hb
      simp only [List.mem_singleton] at hb
      subst hb
      exact hnot ha

theorem mem_keys_uniqAux :
    ∀ (rs : List SearchResult) (acc : List (String × String)) (u : String),
    u ∈ (rs.foldl sourceStep acc).map Prod.fst ↔
      u ∈ acc.map Prod.fst ∨ u ∈ rs.map (fun r => r.url) := by
  intro rs
  induction rs with
  | nil => intro acc u; simp
  | cons r rs ih =>
    intro acc u
    simp only [List.foldl_cons, List.map_cons, List.mem_cons]
    rw [ih, mem_keys_sourceStep]
    tauto

theorem uniqAux_first_title :
    ∀ (rs : List SearchResult) (acc : List (String × String)) (p : String × String),
    p ∈ rs.foldl sourceStep acc →
    p ∈ acc ∨ (p.1 ∉ acc.map Prod.fst ∧
      ∃ t, rs.find? (fun r => r.url == p.1) = some t ∧ t.url = p.1 ∧ t.title = p.2) := by
  intro rs
  induction rs with
  | nil => intro acc p h; exact Or.inl h
  | cons r rs ih =>
    intro acc p h
    simp only [List.foldl_cons] at h
    rcases ih (sourceStep acc r) p h with hmem | ⟨hnk, t, hfind, hturl, httl⟩
    · unfold sourceStep at hmem
      by_cases hany : acc.any (fun q => q.1 == r.url) = true
      · rw [if_pos hany] at hmem; exact Or.inl hmem
      · rw [if_neg hany] at hmem
        rcases List.mem_append.mp hmem with hmem | hmem
        · exact Or.inl hmem
        · simp only [List.mem_singleton] at hmem
          subst hmem
          refine Or.inr ⟨?_, r, ?_, rfl, rfl⟩
          · intro hk
            obtain ⟨q, hq, hqu⟩ := List.mem_map.mp hk
            exact hany (List.any_eq_true.mpr ⟨q, hq, by simp [hqu]⟩)
          · exact List.find?_cons_of_pos _ (by simp)
    · have hne : r.url ≠ p.1 := by
        intro heq
        exact hnk ((mem_keys_sourceStep acc r p.1).mpr (Or.inr heq.symm))
      have hnacc : p.1 ∉ acc.map Prod.fst :=
        fun hk => hnk ((mem_keys_sourceStep acc r p.1).mpr (Or.inl hk))
      refine Or.inr ⟨hnacc, t, ?_, hturl, httl⟩
      rw [List.find?_cons_of_neg _ (by simp [hne])]
      exact hfind

theorem deepSearchAux_iterations (search : Nat → String → List SearchResult)
    (analyze : Nat → String → List SearchResult → Analysis) (maxIterations : Nat) :
    ∀ (fuel i : Nat) (q : String) (acc : List SearchResult) (sums : List String),
    (deepSearchAux search analyze maxIterations fuel i q acc sums).iterations ≤ i + fuel := by
  intro fuel
  induction fuel with
  | zero => intro i q acc sums; simp [deepSearchAux]
  | succ fuel ih =>
    intro i q acc sums
    rw [deepSearchAux]
    by_cases hres : search i q = []
    · simp [hres]
    · by_cases hstop :
        ((analyze i q (search i q)).sufficient || decide (i = maxIterations - 1)) = true
      · simp [hres, hstop]
      · simp only [Bool.not_eq_true] at hstop
        simp only [hres, if_neg hres, hstop, Bool.false_eq_true, if_false]
        have hrec := ih (i + 1) (((analyze i q (search i q)).followUp).getD q)
          (acc ++ search i q) (sums ++ [(analyze i q (search i q)).summary])
        omega

/-- C6: for a fixed query and a deterministic stub search engine, the
deep-search loop performs at most `max_iterations` iterations (and
terminates, the loop being structurally recursive), and the
`Sources consulted` dict contains every distinct URL returned across all
iterations exactly once — its keys are free of duplicates, a URL appears
among them exactly when some returned result carries it — and each entry
keeps the title of the first result with that URL. -/
theorem deep_search_source_dedup (search : Nat → String → List SearchResult)
    (analyze : Nat → String → List SearchResult → Analysis)
    (maxIterations : Nat) (query : String) :
    (deepSearch search analyze maxIterations query).iterations ≤ maxIterations ∧
    ((uniqueSources (deepSearch search analyze maxIterations query).allResults).map
        Prod.fst).Nodup ∧
    (∀ u, u ∈ (uniqueSources (deepSearch search analyze maxIterations query).allResults).map
            Prod.fst ↔
          u ∈ (deepSearch search analyze maxIterations query).allResults.map
            (fun r => r.url)) ∧
    (∀ p ∈ uniqueSources (deepSearch search analyze maxIterations query).allResults,
      ∃ t, (deepSearch search analyze maxIterations query).allResults.find?
              (fun r => r.url == p.1) = some t ∧ t.url = p.1 ∧ t.title = p.2) := by
  refine ⟨?_, ?_, ?_, ?_⟩
  · have := deepSearchAux_iterations search analyze maxIterations maxIterations 0 query [] []
    simpa [deepSearch] using this
  · exact nodup_keys_uniqAux _ [] (by simp)
  · intro u
    rw [uniqueSources, mem_keys_uniqAux]
    simp
  · intro p hp
    rcases uniqAux_first_title _ [] p hp with hmem | ⟨_, t, hfind, hturl, httl⟩
    · cases hmem
    · exact ⟨t, hfind, hturl, httl⟩

/-- Witness for C6: a stub engine returning url `u1` twice (with
different titles) and `u2` once across two iterations; the source dict
keeps `u1` once with its first title. -/
theorem deep_search_source_dedup_witness :
    (deepSearch
        (fun i _ => if i = 0 then [⟨"T1", "u1", "c1"⟩, ⟨"T2", "u2", "c2"⟩]
                    else [⟨"T3", "u1", "c3"⟩])
        (fun _ _ _ => ⟨"sum", none, false⟩) 2 "q").iterations ≤ 2 ∧
    ∃ t, (deepSearch
        (fun i _ => if i = 0 then [⟨"T1", "u1", "c1"⟩, ⟨"T2", "u2", "c2"⟩]
                    else [⟨"T3", "u1", "c3"⟩])
        (fun _ _ _ => ⟨"sum", none, false⟩) 2 "q").allResults.find?
          (fun r => r.url == "u1") = some t ∧ t.url = "u1" ∧ t.title = "T1" := by
  refine ⟨(deep_search_source_dedup _ _ 2 "q").1, ?_⟩
  exact (deep_search_source_dedup
    (fun i _ => if i = 0 then [⟨"T1", "u1", "c1"⟩, ⟨"T2", "u2", "c2"⟩]
                else [⟨"T3", "u1", "c3"⟩])
    (fun _ _ _ => ⟨"sum", none, false⟩) 2 "q").2.2.2 ("u1", "T1") (by decide)

/-! ## Persistent shell (`utility/execute_bash_command/function.py`)

`PersistentShell.execute` writes the command to the subprocess and then
loops on `self.output_queue.get(timeout=timeout)`.  Each `get` either
returns one line (put there by the reader thread) or raises `queue.Empty`
after the fixed timeout; the run of one call is modelled as the finite
sequence of these outcomes.  The `except queue.Empty: pass` makes a
timeout fall through to `return ''.join(output_lines)`, so the collected
partial lines are returned and no exception escapes. -/

inductive GetOutcome where
  | line : String → GetOutcome
  | empty : GetOutcome

/-- Python whitespace as stripped by `str.strip()`. -/
def isPySpace (c : Char) : Bool :=
  c = ' ' || c = '\t' || c = '\n' || c = '\r' || c = '\x0b' || c = '\x0c'

/-- Python `s.strip()` with no arguments: drop leading and trailing
whitespace. -/
def pyStrip (s : String) : String :=
  ⟨((s.data.dropWhile isPySpace).reverse.dropWhile isPySpace).reverse⟩

/-- The prompt heuristic `line.strip() in [">", "$"]`. -/
def isPromptLine (s : String) : Bool :=
  pyStrip s == ">" || pyStrip s == "$"

/-- The `while True` read loop with its surrounding `try`/`except`:
append each line, break on a prompt-looking line, and on `queue.Empty`
(or the end of this run's outcomes) return what was collected. -/
def shellReadLoop : List GetOutcome → List String → List String
  | [], acc => acc
  | GetOutcome.empty :: _, acc => acc
  | GetOutcome.line s :: rest, acc =>
    if isPromptLine s then acc ++ [s] else shellReadLoop rest (acc ++ [s])

/-- `PersistentShell.execute`: `''.join(output_lines)` over the loop. -/
def persistentShellExecute (outcomes : List GetOutcome) : String :=
  String.join (shellReadLoop outcomes [])

/-- `ExecuteBashCommand.execute` around a successful shell run: wraps the
shell output and the follow-up LLM commentary (`aiGen`, modelling
`self.personality.fast_gen(...)`) into the returned string. -/
def executeBashCommand (outcomes : List GetOutcome) (aiGen : String → String) : String :=
  let output := persistentShellExecute outcomes
  "Execution output:\n```\n" ++ output ++ "\n```\n" ++ aiGen output

theorem shellReadLoop_no_prompt (ls : List String)
    (h : ∀ s ∈ ls, isPromptLine s = false) :
    ∀ acc, shellReadLoop (ls.map GetOutcome.line ++ [GetOutcome.empty]) acc = acc ++ ls := by
  induction ls with
  | nil => intro acc; simp [shellReadLoop]
  | cons s ls ih =>
    intro acc
    have hs : isPromptLine s = false := h s (List.mem_cons_self s ls)
    have htl := ih (fun t ht => h t (List.mem_cons_of_mem s ht))
    simp only [List.map_cons, List.cons_append, shellReadLoop, hs,
      Bool.false_eq_true, if_false]
    have hrest := htl (acc ++ [s])
    simpa using hrest

/-- C7: for a command whose output production outlasts the read timeout
— a run in which the queue yields some non-prompt lines and then raises
`queue.Empty` — `PersistentShell.execute` returns exactly the partial
lines collected before the timeout, joined, and `ExecuteBashCommand.execute`
wraps that partial output; the timeout is swallowed (both functions are
total and return a string, no exception escapes). -/
theorem shell_timeout_returns_partial (ls : List String) (aiGen : String → String)
    (h : ∀ s ∈ ls, isPromptLine s = false) :
    persistentShellExecute (ls.map GetOutcome.line ++ [GetOutcome.empty])
      = String.join ls ∧
    executeBashCommand (ls.map GetOutcome.line ++ [GetOutcome.empty]) aiGen
      = "Execution output:\n```\n" ++ String.join ls ++ "\n```\n"
        ++ aiGen (String.join ls) := by
  have hloop : persistentShellExecute (ls.map GetOutcome.line ++ [GetOutcome.empty])
      = String.join ls := by
    unfold persistentShellExecute
    rw [shellReadLoop_no_prompt ls h []]
    simp
  exact ⟨hloop, by unfold executeBashCommand; rw [hloop]⟩

/-- Witness for C7: two partial lines are collected, then the timeout
hits; the joined partial output is returned. -/
theorem shell_timeout_returns_partial_witness :
    persistentShellExecute ([ "partial line 1\n", "partial line 2\n"].map GetOutcome.line
        ++ [GetOutcome.empty]) = String.join ["partial line 1\n", "partial line 2\n"] ∧
    executeBashCommand ([ "partial line 1\n", "partial line 2\n"].map GetOutcome.line
        ++ [GetOutcome.empty]) (fun s => s)
      = "Execution output:\n```\n" ++ String.join ["partial line 1\n", "partial line 2\n"]
        ++ "\n```\n" ++ (fun s : String => s) (String.join ["partial line 1\n", "partial line 2\n"]) :=
  shell_timeout_returns_partial ["partial line 1\n", "partial line 2\n"] (fun s => s)
    (by decide)

/-! ## Calculator (`utility/calculator/function.py`)

`Calculator.execute` evaluates the expression with `eval` in a restricted
namespace inside a `try`/`except Exception`.  The evaluation is modelled
as an oracle `evalExpr : String → Except String String`: `Except.error msg`
models `eval` raising an exception whose `str(e)` is `msg`, and
`Except.ok v` models a successful evaluation whose formatted value
(`str(result)` as interpolated by the f-string) is `v`. -/

/-- `Calculator.execute`: `kwargs.get("expression", "0")` then the
`try`/`except` around `eval`. -/
def calculatorExecute (evalExpr : String → Except String String)
    (expressionParam : Option String) : String :=
  let expression := expressionParam.getD "0"
  match evalExpr expression with
  | Except.ok v => "The result of '" ++ expression ++ "' is: " ++ v
  | Except.error msg => "An error occurred: " ++ msg

/-- C9: for every expression parameter and every behaviour of the
evaluator, `Calculator.execute` returns a string (it is total, so no
exception propagates to the caller): the error string built from the
exception message when evaluation raises, and the formatted result
string otherwise. -/
theorem calculator_never_raises (evalExpr : String → Except String String)
    (expressionParam : Option String) :
    (∃ msg, evalExpr (expressionParam.getD "0") = Except.error msg ∧
      calculatorExecute evalExpr expressionParam = "An error occurred: " ++ msg) ∨
    (∃ v, evalExpr (expressionParam.getD "0") = Except.ok v ∧
      calculatorExecute evalExpr expressionParam
        = "The result of '" ++ expressionParam.getD "0" ++ "' is: " ++ v) := by
  cases h : evalExpr (expressionParam.getD "0") with
  | ok v => exact Or.inr ⟨v, rfl, by simp [calculatorExecute, h]⟩
  | error msg => exact Or.inl ⟨msg, rfl, by simp [calculatorExecute, h]⟩

/-! ## Folder structure to text (`utility/folder_structure_to_text/function.py`,
`FolderStructureToText.execute`)

The filesystem is an oracle; every interaction of `execute` with the
target folder is recorded as an event, so that "performs no filesystem
traversal" is the statement that the event trace is empty.  The
re-parsing of static exclusions at the top of `execute` only reads the
plugin's own configuration, not the target folder, so it produces no
event.  Helpers that do pure IO (`_build_tree_and_collect_files`,
`_generate_file_contents_markdown`, the optional save) are abstracted as
oracle fields; their invocations are the events `traverseEv`, `readEv`
and `writeEv`. -/

structure FolderFs where
  resolve : String → String
  pathExists : String → Bool
  isDir : String → Bool
  baseName : String → String
  buildTree : String → List String → List String × List String
  contentLines : String → List String → List String

inductive FsEvent where
  | resolveEv : String → FsEvent
  | existsEv : String → FsEvent
  | isDirEv : String → FsEvent
  | traverseEv : String → FsEvent
  | readEv : String → FsEvent
  | writeEv : String → FsEvent

/-- `"\n".join(lines)`. -/
def joinLines (lines : List String) : String :=
  String.intercalate "\n" lines

/-- `FolderStructureToText.execute`.  `folderPathParam` models
`kwargs.get("folder_path", "")` (`none` when the parameter is missing),
`excludePatterns` the cleaned dynamic exclusion list, `saveCopy` the
`save_to_discussion_folder` setting and `discussionFolder` the client's
discussion folder when available and valid.  The returned trace lists
the filesystem interactions performed, in order. -/
def folderStructureExecute (fs : FolderFs) (folderPathParam : Option String)
    (excludePatterns : List String) (saveCopy : Bool)
    (discussionFolder : Option String) : String × List FsEvent :=
  let folder_path_str := folderPathParam.getD ""
  if folder_path_str = "" then
    ("```error\nError: No folder path provided.\n```", [])
  else
    let folder := fs.resolve folder_path_str
    if fs.pathExists folder = false then
      ("```error\nError: Folder not found: " ++ folder ++ "\n```",
       [FsEvent.resolveEv folder_path_str, FsEvent.existsEv folder])
    else if fs.isDir folder = false then
      ("```error\nError: The provided path is not a valid directory: " ++ folder ++ "\n```",
       [FsEvent.resolveEv folder_path_str, FsEvent.existsEv folder, FsEvent.isDirEv folder])
    else
      let tf := fs.buildTree folder excludePatterns
      let structure_output_lines :=
        ["# Folder Structure: " ++ fs.baseName folder, "", "```text",
         "📁 " ++ fs.baseName folder ++ "/"] ++ tf.1 ++ ["```"]
      let content_output_lines := fs.contentLines folder tf.2
      let full_output := joinLines structure_output_lines ++ "\n"
        ++ joinLines content_output_lines
      let events := [FsEvent.resolveEv folder_path_str, FsEvent.existsEv folder,
        FsEvent.isDirEv folder, FsEvent.traverseEv folder]
        ++ tf.2.map FsEvent.readEv
        ++ (match saveCopy, discussionFolder with
            | true, some d => [FsEvent.writeEv d]
            | _, _ => [])
      (pyStrip full_output, events)

/-- C8: when the `folder_path` parameter is missing or empty, `execute`
returns the error string immediately and interacts with the filesystem
not at all — no resolution, no existence check, no traversal, no read,
no write. -/
theorem folder_missing_param_no_traversal (fs : FolderFs)
    (folderPathParam : Option String) (excludePatterns : List String)
    (saveCopy : Bool) (discussionFolder : Option String)
    (h : folderPathParam = none ∨ folderPathParam = some "") :
    folderStructureExecute fs folderPathParam excludePatterns saveCopy discussionFolder
      = ("```error\nError: No folder path provided.\n```", []) := by
  rcases h with rfl | rfl
  · rfl
  · rfl

/-- Witness for C8 at a concrete oracle and missing parameter. -/
theorem folder_missing_param_no_traversal_witness :
    folderStructureExecute
      { resolve := fun s => s, pathExists := fun _ => true, isDir := fun _ => true,
        baseName := fun s => s, buildTree := fun _ _ => ([], []),
        contentLines := fun _ _ => [] }
      none ["*.log"] true (some "discussion")
      = ("```error\nError: No folder path provided.\n```", []) :=
  folder_missing_param_no_traversal
    { resolve := fun s => s, pathExists := fun _ => true, isDir := fun _ => true,
      baseName := fun s => s, buildTree := fun _ _ => ([], []),
      contentLines := fun _ _ => [] }
    none ["*.log"] true (some "discussion") (Or.inl rfl)

/-! ## Path sanitisation (`development/build_lollms_function_call/function.py`,
`sanitize_path_from_user_input`)

The function operates character-wise on the string, so it is embedded
over `List Char`.  `unicodedata.normalize('NFKD', s)` is an oracle
`nfkd : String → String` (its exact behaviour is irrelevant to the
properties proved, which hold for every normalisation);
`.encode('ascii','ignore').decode('ascii')` drops every non-ASCII
character.  After that the string is pure ASCII, for which the regex
classes have exact character-level meanings: `\w` is alphanumeric or
underscore, `\s` is the Python whitespace set. -/

/-- `.encode('ascii', 'ignore').decode('ascii')`. -/
def asciiIgnore (s : String) : String :=
  ⟨s.data.filter (fun c => c.toNat < 128)⟩

/-- `\w` on an ASCII string. -/
def pythonWordChar (c : Char) : Bool :=
  c.isAlphanum || c = '_'

/-- The character class kept by the first substitution:
`[^\w\s./\\-]` with slashes allowed, `[^\w\s.-]` without. -/
def keepChar (allow_slashes : Bool) (c : Char) : Bool :=
  if allow_slashes then
    pythonWordChar c || isPySpace c || c = '.' || c = '/' || c = '\\' || c = '-'
  else
    pythonWordChar c || isPySpace c || c = '.' || c = '-'

/-- `re.sub(r'\s+', '_', s)`: each maximal whitespace run becomes one
underscore; the flag records whether the previous character was
whitespace. -/
def collapseSpacesAux : Bool → List Char → List Char
  | _, [] => []
  | prev, c :: cs =>
    if isPySpace c then
      if prev then collapseSpacesAux true cs else '_' :: collapseSpacesAux true cs
    else c :: collapseSpacesAux false cs

/-- `re.sub(r'_+', '_', s)`. -/
def collapseUnderscoresAux : Bool → List Char → List Char
  | _, [] => []
  | prev, c :: cs =>
    if c = '_' then
      if prev then collapseUnderscoresAux true cs else '_' :: collapseUnderscoresAux true cs
    else c :: collapseUnderscoresAux false cs

/-- `s.strip(chars)`: drop the given characters from both ends. -/
def pyStripChars (strip : Char → Bool) (l : List Char) : List Char :=
  ((l.dropWhile strip).reverse.dropWhile strip).reverse

/-- `s.replace(abc, '_')` for a three-character pattern: left-to-right,
non-overlapping, scanning resumes after each replacement. -/
def replaceDotDot (a b c : Char) : List Char → List Char
  | x :: y :: z :: rest =>
    if x = a ∧ y = b ∧ z = c then '_' :: replaceDotDot a b c rest
    else x :: replaceDotDot a b c (y :: z :: rest)
  | l => l

/-- `s.rsplit('_', 1)[0]`: everything before the last underscore, or the
whole string when there is none. -/
def rsplitUnderscoreHead (l : List Char) : List Char :=
  if '_' ∈ l then ((l.reverse.dropWhile (fun c => c ≠ '_')).drop 1).reverse else l

def reserved_names : List String :=
  ["con", "prn", "aux", "nul",
   "com1", "com2", "com3", "com4", "com5", "com6", "com7", "com8", "com9",
   "lpt1", "lpt2", "lpt3", "lpt4", "lpt5", "lpt6", "lpt7", "lpt8", "lpt9"]

/-- The tail of `sanitize_path_from_user_input` shared by both branches:
the `'../'`/`'..\\'` replacements, the length cap with its
`rsplit('_', 1)` truncation (including the dead
`sanitized = sanitized[:max_len]` self-assignment on the empty string),
the empty fallback and the reserved-name prefix. -/
def sanitizeTail (allow_slashes : Bool) (l : List Char) : String :=
  let r1 := replaceDotDot '.' '.' '/' l
  let r2 := replaceDotDot '.' '.' '\\' r1
  let t :=
    if 200 < r2.length then
      let t0 := rsplitUnderscoreHead (r2.take 200)
      if t0 = [] then t0.take 200 else t0
    else r2
  if t = [] then (if allow_slashes then "_" else "_generated_component_")
  else
    if !allow_slashes
        && reserved_names.contains (String.mk (t.takeWhile (fun c => c ≠ '.'))) then
      String.mk ('_' :: t)
    else String.mk t

/-- `sanitize_path_from_user_input` (the `isinstance` guard always
passes, the input being a string). -/
def sanitize_path_from_user_input (nfkd : String → String) (path_string : String)
    (allow_slashes : Bool) : String :=
  let normalized_string := asciiIgnore (nfkd path_string)
  let lowered := normalized_string.data.map Char.toLower
  let s1 := lowered.map (fun c => if keepChar allow_slashes c then c else '_')
  let s2 := collapseSpacesAux false s1
  if allow_slashes then
    sanitizeTail allow_slashes s2
  else
    let s3 := pyStripChars (fun c => c = '.' || c = '_' || c = ' ') s2
    let s4 := collapseUnderscoresAux false s3
    if s4 = [] then "_generated_name_"
    else sanitizeTail allow_slashes s4

/-- No slash and no backslash anywhere in the character list. -/
def NoSlash (l : List Char) : Prop :=
  ∀ c ∈ l, c ≠ '/' ∧ c ≠ '\\'

theorem noSlash_sub (lowered : List Char) :
    NoSlash (lowered.map (fun c => if keepChar false c then c else '_')) := by
  intro c hc
  obtain ⟨d, _, hd⟩ := List.mem_map.mp hc
  by_cases hk : keepChar false d = true
  · rw [if_pos hk] at hd
    subst hd
    constructor
    · rintro rfl
      exact absurd hk (by decide)
    · rintro rfl
      exact absurd hk (by decide)
  · rw [if_neg hk] at hd
    subst hd
    exact ⟨by decide, by decide⟩

theorem mem_collapseSpacesAux :
    ∀ (l : List Char) (b : Bool) (c : Char),
    c ∈ collapseSpacesAux b l → c = '_' ∨ c ∈ l := by
  intro l
  induction l with
  | nil => intro b c h; cases h
  | cons x xs ih =>
    intro b c h
    by_cases hx : isPySpace x = true
    · cases b with
      | true =>
        have he : collapseSpacesAux true (x :: xs) = collapseSpacesAux true xs := by
          simp [collapseSpacesAux, hx]
        rw [he] at h
        rcases ih true c h with h | h
        · exact Or.inl h
        · exact Or.inr (List.mem_cons_of_mem x h)
      | false =>
        have he : collapseSpacesAux false (x :: xs) = '_' :: collapseSpacesAux true xs := by
          simp [collapseSpacesAux, hx]
        rw [he] at h
        rcases List.mem_cons.mp h with rfl | h
        · exact Or.inl rfl
        · rcases ih true c h with h | h
          · exact Or.inl h
          · exact Or.inr (List.mem_cons_of_mem x h)
    · have hx' : isPySpace x = false := by simpa using hx
      have he : collapseSpacesAux b (x :: xs) = x :: collapseSpacesAux false xs := by
        simp [collapseSpacesAux, hx']
      rw [he] at h
      rcases List.mem_cons.mp h with rfl | h
      · exact Or.inr (List.mem_cons_self _ _)
      · rcases ih false c h with h | h
        · exact Or.inl h
        · exact Or.inr (List.mem_cons_of_mem x h)

theorem mem_collapseUnderscoresAux :
    ∀ (l : List Char) (b : Bool) (c : Char),
    c ∈ collapseUnderscoresAux b l → c = '_' ∨ c ∈ l := by
  intro l
  induction l with
  | nil => intro b c h; cases h
  | cons x xs ih =>
    intro b c h
    by_cases hx : x = '_'
    · cases b with
      | true =>
        have he : collapseUnderscoresAux true (x :: xs) = collapseUnderscoresAux true xs := by
          simp [collapseUnderscoresAux, hx]
        rw [he] at h
        rcases ih true c h with h | h
        · exact Or.inl h
        · exact Or.inr (List.mem_cons_of_mem x h)
      | false =>
        have he : collapseUnderscoresAux false (x :: xs)
            = '_' :: collapseUnderscoresAux true xs := by
          simp [collapseUnderscoresAux, hx]
        rw [he] at h
        rcases List.mem_cons.mp h with rfl | h
        · exact Or.inl rfl
        · rcases ih true c h with h | h
          · exact Or.inl h
          · exact Or.inr (List.mem_cons_of_mem x h)
    · have he : collapseUnderscoresAux b (x :: xs) = x :: collapseUnderscoresAux false xs := by
        simp [collapseUnderscoresAux, hx]
      rw [he] at h
      rcases List.mem_cons.mp h with rfl | h
      · exact Or.inr (List.mem_cons_self _ _)
      · rcases ih false c h with h | h
        · exact Or.inl h
        · exact Or.inr (List.mem_cons_of_mem x h)

theorem mem_pyStripChars (strip : Char → Bool) (l : List Char) (c : Char)
    (h : c ∈ pyStripChars strip l) : c ∈ l := by
  unfold pyStripChars at h
  rw [List.mem_reverse] at h
  have h2 := (List.dropWhile_sublist strip).subset h
  rw [List.mem_reverse] at h2
  exact (List.dropWhile_sublist strip).subset h2

theorem mem_replaceDotDot (a b c : Char) :
    ∀ (l : List Char) (d : Char), d ∈ replaceDotDot a b c l → d = '_' ∨ d ∈ l := by
  suffices hstrong : ∀ (n : Nat) (l : List Char), l.length ≤ n →
      ∀ d ∈ replaceDotDot a b c l, d = '_' ∨ d ∈ l by
    intro l d hd
    exact hstrong l.length l (Nat.le_refl _) d hd
  intro n
  induction n with
  | zero =>
    intro l hl d hd
    rcases l with _ | ⟨x, xs⟩
    · cases hd
    · simp at hl
  | succ n ih =>
    intro l hl d hd
    rcases l with _ | ⟨x, _ | ⟨y, _ | ⟨z, rest⟩⟩⟩
    · cases hd
    · exact Or.inr (by simpa [replaceDotDot] using hd)
    · exact Or.inr (by simpa [replaceDotDot] using hd)
    · by_cases hm : x = a ∧ y = b ∧ z = c
      · rw [replaceDotDot, if_pos hm] at hd
        rcases List.mem_cons.mp hd with rfl | hd
        · exact Or.inl rfl
        · have hlen : rest.length ≤ n := by simp at hl; omega
          rcases ih rest hlen d hd with h | h
          · exact Or.inl h
          · exact Or.inr (by simp [h])
      · rw [replaceDotDot, if_neg hm] at hd
        rcases List.mem_cons.mp hd with rfl | hd
        · exact Or.inr (List.mem_cons_self d (y :: z :: rest))
        · have hlen : (y :: z :: rest).length ≤ n := by simp at hl ⊢; omega
          rcases ih (y :: z :: rest) hlen d hd with h | h
          · exact Or.inl h
          · exact Or.inr (List.mem_cons_of_mem x h)

theorem mem_rsplitUnderscoreHead (l : List Char) (c : Char)
    (h : c ∈ rsplitUnderscoreHead l) : c ∈ l := by
  unfold rsplitUnderscoreHead at h
  by_cases hu : '_' ∈ l
  · rw [if_pos hu] at h
    rw [List.mem_reverse] at h
    have h2 := List.drop_subset 1 _ h
    have h3 := (List.dropWhile_sublist (fun c => c ≠ '_')).subset h2
    rw [List.mem_reverse] at h3
    exact h3
  · rw [if_neg hu] at h
    exact h

theorem noSlash_sanitizeTail (l : List Char) (hl : NoSlash l) :
    sanitizeTail false l ≠ "" ∧ NoSlash (sanitizeTail false l).data := by
  have h1 : NoSlash (replaceDotDot '.' '.' '/' l) := by
    intro c hc
    rcases mem_replaceDotDot '.' '.' '/' l c hc with rfl | hc
    · exact ⟨by decide, by decide⟩
    · exact hl c hc
  have h2 : NoSlash (replaceDotDot '.' '.' '\\' (replaceDotDot '.' '.' '/' l)) := by
    intro c hc
    rcases mem_replaceDotDot '.' '.' '\\' _ c hc with rfl | hc
    · exact ⟨by decide, by decide⟩
    · exact h1 c hc
  unfold sanitizeTail
  set r2 := replaceDotDot '.' '.' '\\' (replaceDotDot '.' '.' '/' l) with hr2
  set t := if 200 < r2.length then
      (if rsplitUnderscoreHead (r2.take 200) = []
       then (rsplitUnderscoreHead (r2.take 200)).take 200
       else rsplitUnderscoreHead (r2.take 200))
    else r2 with ht
  have hts : NoSlash t := by
    rw [ht]
    by_cases hlen : 200 < r2.length
    · rw [if_pos hlen]
      by_cases hz : rsplitUnderscoreHead (r2.take 200) = []
      · rw [if_pos hz, hz]
        intro c hc
        cases hc
      · rw [if_neg hz]
        intro c hc
        exact h2 c (List.take_subset 200 r2 (mem_rsplitUnderscoreHead _ c hc))
    · rw [if_neg hlen]
      exact h2
  by_cases hte : t = []
  · rw [if_pos hte]
    refine ⟨by decide, ?_⟩
    unfold NoSlash
    decide
  · rw [if_neg hte]
    by_cases hres : (!false && reserved_names.contains
        (String.mk (t.takeWhile (fun c => c ≠ '.')))) = true
    · rw [if_pos hres]
      constructor
      · intro hcon
        have hdata := congrArg String.data hcon
        simp at hdata
      · intro c hc
        rcases List.mem_cons.mp hc with rfl | hc
        · exact ⟨by decide, by decide⟩
        · exact hts c hc
    · rw [if_neg hres]
      refine ⟨?_, hts⟩
      intro hcon
      apply hte
      have hdata := congrArg String.data hcon
      simpa using hdata

/-- C10: for every input string (and every behaviour of the NFKD
normalisation), `sanitize_path_from_user_input` with
`allow_slashes = False` returns a non-empty string containing neither
`'/'` nor `'\\'`, so the result is always a single safe path component. -/
theorem sanitize_no_slashes (nfkd : String → String) (path_string : String) :
    sanitize_path_from_user_input nfkd path_string false ≠ "" ∧
    ∀ c ∈ (sanitize_path_from_user_input nfkd path_string false).data,
      c ≠ '/' ∧ c ≠ '\\' := by
  unfold sanitize_path_from_user_input
  simp only [Bool.false_eq_true, if_false]
  set lowered := (asciiIgnore (nfkd path_string)).data.map Char.toLower with hlow
  set s1 := lowered.map (fun c => if keepChar false c then c else '_') with hs1
  set s2 := collapseSpacesAux false s1 with hs2
  set s3 := pyStripChars (fun c => c = '.' || c = '_' || c = ' ') s2 with hs3
  set s4 := collapseUnderscoresAux false s3 with hs4
  have hns4 : NoSlash s4 := by
    intro c hc
    rcases mem_collapseUnderscoresAux s3 false c hc with rfl | hc
    · exact ⟨by decide, by decide⟩
    · have hc2 := mem_pyStripChars _ s2 c hc
      rcases mem_collapseSpacesAux s1 false c hc2 with rfl | hc3
      · exact ⟨by decide, by decide⟩
      · exact noSlash_sub lowered c hc3
  by_cases h4 : s4 = []
  · rw [if_pos h4]
    exact ⟨by decide, by decide⟩
  · rw [if_neg h4]
    exact noSlash_sanitizeTail s4 hns4

/-- Witness for C10 at a concrete path containing slashes, spaces and a
parent-directory fragment. -/
theorem sanitize_no_slashes_witness :
    sanitize_path_from_user_input (fun s => s) "My Plugin/../SECRET name.txt" false ≠ "" ∧
    ('m' ∈ (sanitize_path_from_user_input (fun s => s)
        "My Plugin/../SECRET name.txt" false).data → 'm' ≠ '/' ∧ 'm' ≠ '\\') :=
  ⟨(sanitize_no_slashes (fun s => s) "My Plugin/../SECRET name.txt").1,
   (sanitize_no_slashes (fun s => s) "My Plugin/../SECRET name.txt").2 'm'⟩

end LollmsZoo
